import Mathlib

/-!
Verification of the online WFST decoding core of PaddleSpeech
(`speechx/decoder/ctc_tlg_decoder.h`).

The repository fragment under verification is a declaration-only header:
`TLGDecoderOptions` and the `TLGDecoder` facade are declared there, while the
bodies of the decoding engine (token passing, recombination, beam pruning,
path extraction) live outside the provided sources.  Following the design
document, the engine is therefore modelled from the spec: every definition
below whose doc comment starts with `Modelled from the spec:` embeds the
behaviour the design document prescribes for the missing bodies.  Costs are
modelled as rationals (the code uses floating point; the spec only relies on
an ordered additive cost).  `TLGDecoderOptions` is embedded directly from the
header.
-/

set_option autoImplicit false

namespace PPSpeech

/-- Modelled from the spec (§3 data model): a graph arc
`(source state, destination state, input label, output label, weight)`.
Label `0` encodes epsilon. -/
structure Arc where
  src : Nat
  dst : Nat
  ilabel : Nat
  olabel : Nat
  weight : ℚ
deriving DecidableEq, Repr

/-- Modelled from the spec (§4.1 SearchGraph): an immutable WFST with a start
state, arcs, and per-state final weights (`none` = non-final). -/
structure SearchGraph where
  start : Nat
  arcs : List Arc
  finalWeight : Nat → Option ℚ

/-- Modelled from the spec (§3 Token): a live hypothesis with a back-reference
to its predecessor token and the arc taken, plus the frame index at creation
and the accumulated cost.  The `start` constructor is the synthetic frame-0
start token (cost 0, frame 0). -/
inductive Token where
  | start (st : Nat)
  | ext (pred : Token) (arc : Arc) (frame : Nat) (cost : ℚ)
deriving DecidableEq, Repr

/-- Graph state owned by a token. -/
def Token.state : Token → Nat
  | .start st => st
  | .ext _ a _ _ => a.dst

/-- Frame index stored in a token (the synthetic start token is at frame 0). -/
def Token.frame : Token → Nat
  | .start _ => 0
  | .ext _ _ f _ => f

/-- Accumulated path cost stored in a token (the start token has cost 0). -/
def Token.cost : Token → ℚ
  | .start _ => 0
  | .ext _ _ _ c => c

/-- The token at the end of the predecessor chain. -/
def Token.root : Token → Token
  | .start st => .start st
  | .ext p _ _ _ => p.root

/-- Word (non-epsilon output label) sequence read off the predecessor chain. -/
def Token.words : Token → List Nat
  | .start _ => []
  | .ext p a _ _ => p.words ++ (if a.olabel = 0 then [] else [a.olabel])

/-- Frame bookkeeping is consistent with the predecessor chain: each
non-epsilon step advances the stored frame index by exactly 1, each epsilon
step leaves it unchanged. -/
def Token.chainOk : Token → Bool
  | .start _ => true
  | .ext p a f _ =>
      p.chainOk && (if a.ilabel = 0 then f == p.frame else f == p.frame + 1)

/-- Modelled from the spec (§4.3 state machine):
`Idle → Decoding → {FrameExhausted, Finalized}`. -/
inductive EngineState where
  | Idle
  | Decoding
  | FrameExhausted
  | Finalized
deriving DecidableEq, Repr

/-- Modelled from the spec (§4.3 DecodingEngine): the engine's sole mutable
state is the token lattice frontier, the decoded-frame counter, and the
lifecycle state. -/
structure Engine where
  frontier : List Token
  numFramesDecoded : Nat
  state : EngineState
deriving DecidableEq, Repr

/-- Modelled from the spec (§4.3): `Reset()` clears the token lattice, creates
the frame-0 start token at the graph's start state with zero cost, and returns
the engine to `Decoding`. -/
def reset (g : SearchGraph) (_e : Engine) : Engine :=
  { frontier := [Token.start g.start], numFramesDecoded := 0,
    state := EngineState.Decoding }

/-- A freshly constructed engine, immediately reset against the graph. -/
def freshEngine (g : SearchGraph) : Engine :=
  reset g { frontier := [], numFramesDecoded := 0, state := EngineState.Idle }

/-- Keep the lower-cost of two candidate tokens for one state; ties prefer the
incumbent (earliest-created) token. -/
def betterOf (t u : Token) : Token :=
  if u.cost < t.cost then u else t

/-- Insert a token into a recombined frontier: if a token for the same graph
state is already present, keep only the lower-cost of the two. -/
def insertRecombine (t : Token) : List Token → List Token
  | [] => [t]
  | u :: us =>
      if u.state = t.state then betterOf u t :: us else u :: insertRecombine t us

/-- Modelled from the spec (§4.3 step 2, token recombination): at each
destination state keep only the lowest-cost token for this frame. -/
def recombine (ts : List Token) : List Token :=
  ts.foldl (fun acc t => insertRecombine t acc) []

/-- Epsilon successors of a token: follow epsilon-input arcs, adding the arc
weight, leaving the frame index unchanged. -/
def epsSuccessors (g : SearchGraph) (t : Token) : List Token :=
  (g.arcs.filter (fun a => a.src == t.state && a.ilabel == 0)).map
    (fun a => Token.ext t a t.frame (t.cost + a.weight))

/-- One round of epsilon expansion followed by recombination. -/
def epsClosureStep (g : SearchGraph) (ts : List Token) : List Token :=
  recombine (ts ++ ts.foldr (fun t acc => epsSuccessors g t ++ acc) [])

/-- Modelled from the spec (§4.3 step 1): epsilon arcs are processed within
the same frame before acoustic expansion (epsilon closure).  The closure is
computed by bounded iteration; one round per arc suffices for convergence of
min-cost epsilon paths. -/
def epsClosure (g : SearchGraph) (ts : List Token) : List Token :=
  (epsClosureStep g)^[g.arcs.length + 1] ts

/-- Emitting successors of a token for the current frame: follow non-epsilon
arcs, adding arc weight plus the acoustic cost of the input label, advancing
the frame index by 1. -/
def emitSuccessors (g : SearchGraph) (ac : Nat → ℚ) (t : Token) : List Token :=
  (g.arcs.filter (fun a => a.src == t.state && a.ilabel != 0)).map
    (fun a => Token.ext t a (t.frame + 1) (t.cost + a.weight + ac a.ilabel))

/-- Lowest cost among a frontier (0 for an empty frontier). -/
def bestCost (ts : List Token) : ℚ :=
  match ts with
  | [] => 0
  | t :: rest => rest.foldl (fun m u => min m u.cost) t.cost

/-- Modelled from the spec (§4.3 step 3): drop any frontier token whose cost
exceeds `best_cost_this_frame + beam_width`. -/
def beamPrune (beam : ℚ) (ts : List Token) : List Token :=
  ts.filter (fun t => decide (t.cost ≤ bestCost ts + beam))

/-- Modelled from the spec (§4.3 `AdvanceOneFrame`): epsilon closure of the
current frontier, acoustic expansion along non-epsilon arcs using this frame's
scores, Viterbi recombination, beam pruning, and advancing
`num_frames_decoded` by 1.  (§4.3 step 4, periodic lattice pruning, only
reclaims unreachable history and is omitted: tokens here own their chains.) -/
def advanceOneFrame (g : SearchGraph) (beam : ℚ) (ac : Nat → ℚ)
    (e : Engine) : Engine :=
  let closed := epsClosure g e.frontier
  let expanded := closed.foldr (fun t acc => emitSuccessors g ac t ++ acc) []
  { frontier := beamPrune beam (recombine expanded),
    numFramesDecoded := e.numFramesDecoded + 1,
    state := e.state }

/-- Modelled from the spec (§4.5 DecoderFacade `FeedUntilExhausted`): loop
calling `AdvanceOneFrame` until the ScoreProvider reports exhaustion.  The
score provider is modelled as the finite list of per-frame score functions it
exposes before exhaustion. -/
def feedUntilExhausted (g : SearchGraph) (beam : ℚ) :
    Engine → List (Nat → ℚ) → Engine
  | e, [] => { e with state := EngineState.FrameExhausted }
  | e, ac :: rest => feedUntilExhausted g beam (advanceOneFrame g beam ac e) rest

/-- Modelled from the spec (§4.3): `Finalize()` transitions the engine to
`Finalized`; final-state costs are folded into token costs at path
extraction. -/
def finalize (e : Engine) : Engine :=
  { e with state := EngineState.Finalized }

/-- Modelled from the spec (§7 error kinds): recoverable decoding errors
surfaced to the caller. -/
inductive DecodeError where
  | emptyFrontier
  | invalidQuery
deriving DecidableEq, Repr

/-- Final-weight-adjusted results readable from a frontier: one
`(cost, word sequence)` per token standing at a final state, with the final
weight folded into the cost. -/
def pathResults (g : SearchGraph) (ts : List Token) : List (ℚ × List Nat) :=
  ts.filterMap (fun t => (g.finalWeight t.state).map (fun w => (t.cost + w, t.words)))

/-- First result of minimal cost in a list, if any. -/
def minByCost : List (ℚ × List Nat) → Option (ℚ × List Nat)
  | [] => none
  | r :: rs =>
      match minByCost rs with
      | none => some r
      | some m => if r.1 ≤ m.1 then some r else some m

/-- Modelled from the spec (§4.4 BestPath, §4.5, §7): `GetFinalBestPath`
returns the lowest-cost final-weight-adjusted path.  Querying final results
before `Finalize()` is an `InvalidQuery`; an empty candidate set is the
recoverable "no hypothesis" failure.  The engine state is returned unchanged
alongside the answer. -/
def GetFinalBestPath (g : SearchGraph) (e : Engine) :
    Except DecodeError (ℚ × List Nat) × Engine :=
  if e.state ≠ EngineState.Finalized then (Except.error DecodeError.invalidQuery, e)
  else
    match minByCost (pathResults g e.frontier) with
    | none => (Except.error DecodeError.emptyFrontier, e)
    | some r => (Except.ok r, e)

/-- Insertion sort of results by ascending cost. -/
def sortByCost (rs : List (ℚ × List Nat)) : List (ℚ × List Nat) :=
  rs.insertionSort (fun a b => a.1 ≤ b.1)

instance : IsTotal (ℚ × List Nat) (fun a b => a.1 ≤ b.1) :=
  ⟨fun a b => le_total a.1 b.1⟩

instance : IsTrans (ℚ × List Nat) (fun a b => a.1 ≤ b.1) :=
  ⟨fun _ _ _ h1 h2 => le_trans h1 h2⟩

/-- Keep the first occurrence of each key `f x`, dropping later duplicates. -/
def dedupBy {α β : Type} (f : α → β) [DecidableEq β] : List α → List α
  | [] => []
  | x :: xs => x :: dedupBy f (xs.filter (fun y => decide (f y ≠ f x)))
termination_by l => l.length
decreasing_by
  simpa using Nat.lt_succ_of_le (List.length_filter_le _ _)

/-- Modelled from the spec (§4.4 NBest): order the lattice's final-weight-
adjusted paths by ascending cost, deduplicate identical word sequences, and
return up to `n` results. -/
def nbest (g : SearchGraph) (ts : List Token) (n : Nat) : List (ℚ × List Nat) :=
  (dedupBy Prod.snd (sortByCost (pathResults g ts))).take n

/-- Number of distinct word sequences among the lattice's complete paths. -/
def distinctWordSeqCount (g : SearchGraph) (ts : List Token) : Nat :=
  ((pathResults g ts).map Prod.snd).toFinset.card

/-- Modelled from the spec (§4.5, §7): `GetNBestPath(n)` rejects `n ≤ 0` as an
`InvalidQuery` with no state mutation; otherwise it returns the N-best list.
The engine state is returned unchanged alongside the answer. -/
def GetNBestPath (g : SearchGraph) (n : Int) (e : Engine) :
    Except DecodeError (List (ℚ × List Nat)) × Engine :=
  if n ≤ 0 then (Except.error DecodeError.invalidQuery, e)
  else (Except.ok (nbest g e.frontier n.toNat), e)

/-- A complete decoding run: reset, feed every frame the provider exposes,
finalize, and extract the final best path. -/
def decodeRun (g : SearchGraph) (beam : ℚ) (e : Engine)
    (scores : List (Nat → ℚ)) : Except DecodeError (ℚ × List Nat) :=
  (GetFinalBestPath g (finalize (feedUntilExhausted g beam (reset g e) scores))).1

/-- Placeholder for the external `kaldi::LatticeFasterDecoderConfig`; its
contents are outside this repository and unused by the claims. -/
structure LatticeFasterDecoderConfig where
  unit : Unit := ()
deriving DecidableEq, Repr

/-- Embedded from `ctc_tlg_decoder.h`: `TLGDecoderOptions` holds the external
decoder config, a word symbol table path and an FST path. -/
structure TLGDecoderOptions where
  opts : LatticeFasterDecoderConfig
  word_symbol_table : String
  fst_path : String
deriving DecidableEq, Repr

/-- Embedded from `ctc_tlg_decoder.h`:
`TLGDecoderOptions() : word_symbol_table(""), fst_path("") {}` — the default
constructor default-constructs `opts` and sets both paths to the empty
string. -/
def TLGDecoderOptions.defaultConstruct : TLGDecoderOptions :=
  { opts := {}, word_symbol_table := "", fst_path := "" }

/-- A token is well-formed for graph `g`: its predecessor chain terminates at
the synthetic frame-0 start token of `g`, and its stored frame index counts
exactly the non-epsilon steps of the chain. -/
def TokenInv (g : SearchGraph) (t : Token) : Prop :=
  t.root = Token.start g.start ∧ t.chainOk = true

/-- A trivial graph used to instantiate hypotheses of the theorems on
concrete inputs. -/
def wGraph : SearchGraph :=
  { start := 0, arcs := [], finalWeight := fun _ => some 0 }

/-- An engine whose frontier has been emptied, mid-session. -/
def emptyEngine : Engine :=
  { frontier := [], numFramesDecoded := 3, state := EngineState.Decoding }

/-- A three-frame linear graph with two competing branches: the cheap-now
branch (states 2,4,6) has a costly last frame; the cheap-overall branch
(states 1,3,5) has a costly middle frame. -/
def cxGraph : SearchGraph :=
  { start := 0,
    arcs := [⟨0, 1, 1, 1, 0⟩, ⟨0, 2, 2, 2, 0⟩, ⟨1, 3, 3, 3, 0⟩,
             ⟨2, 4, 4, 4, 0⟩, ⟨3, 5, 5, 5, 0⟩, ⟨4, 6, 6, 6, 0⟩],
    finalWeight := fun s => if s = 5 ∨ s = 6 then some 0 else none }

/-- Three frames of acoustic scores for `cxGraph`. -/
def cxScores : List (Nat → ℚ) :=
  [fun l => if l = 2 then 5 else 0,
   fun l => if l = 3 then 20 else 0,
   fun l => if l = 6 then 100 else 0]

/-- A one-arc emitting graph used to instantiate the per-step beam
monotonicity theorem on a concrete input. -/
def emitGraph : SearchGraph :=
  { start := 0, arcs := [⟨0, 1, 1, 1, 0⟩], finalWeight := fun _ => none }

/-- The token `emitGraph` produces after one frame of zero scores. -/
def emitTok : Token :=
  Token.ext (Token.start 0) ⟨0, 1, 1, 1, 0⟩ 1 0

/-! ### Helper lemmas -/

theorem betterOf_eq_or (t u : Token) : betterOf t u = t ∨ betterOf t u = u := by
  unfold betterOf
  by_cases h : u.cost < t.cost <;> simp [h]

theorem mem_insertRecombine {x t : Token} {l : List Token}
    (h : x ∈ insertRecombine t l) : x ∈ l ∨ x = t := by
  induction l with
  | nil =>
      simp only [insertRecombine, List.mem_singleton] at h
      exact Or.inr h
  | cons u us ih =>
      simp only [insertRecombine] at h
      by_cases hs : u.state = t.state
      · simp only [hs, if_pos rfl] at h
        rcases List.mem_cons.mp h with h1 | h2
        · rcases betterOf_eq_or u t with hb | hb
          · exact Or.inl (by simp [h1, hb])
          · exact Or.inr (by rw [h1, hb])
        · exact Or.inl (List.mem_cons_of_mem _ h2)
      · simp only [if_neg hs] at h
        rcases List.mem_cons.mp h with h1 | h2
        · exact Or.inl (by simp [h1])
        · rcases ih h2 with h3 | h3
          · exact Or.inl (List.mem_cons_of_mem _ h3)
          · exact Or.inr h3

theorem mem_foldl_insertRecombine {x : Token} :
    ∀ (ts acc : List Token),
      x ∈ ts.foldl (fun acc t => insertRecombine t acc) acc →
        x ∈ acc ∨ x ∈ ts := by
  intro ts
  induction ts with
  | nil => intro acc h; exact Or.inl h
  | cons t ts ih =>
      intro acc h
      rcases ih (insertRecombine t acc) h with h1 | h1
      · rcases mem_insertRecombine h1 with h2 | h2
        · exact Or.inl h2
        · exact Or.inr (by simp [h2])
      · exact Or.inr (List.mem_cons_of_mem _ h1)

theorem mem_recombine {x : Token} {ts : List Token}
    (h : x ∈ recombine ts) : x ∈ ts := by
  rcases mem_foldl_insertRecombine ts [] h with h1 | h1
  · simp at h1
  · exact h1

theorem mem_flatten_foldr {x : Token} (f : Token → List Token) :
    ∀ ts : List Token,
      x ∈ ts.foldr (fun t acc => f t ++ acc) [] ↔ ∃ t ∈ ts, x ∈ f t := by
  intro ts
  induction ts with
  | nil => simp
  | cons t ts ih => simp [ih]

theorem mem_map_state_insertRecombine (t : Token) (l : List Token) (s : Nat) :
    s ∈ (insertRecombine t l).map Token.state ↔
      s ∈ l.map Token.state ∨ s = t.state := by
  induction l with
  | nil => simp [insertRecombine]
  | cons u us ih =>
      simp only [insertRecombine]
      by_cases hs : u.state = t.state
      · have hb : (betterOf u t).state = u.state := by
          rcases betterOf_eq_or u t with h | h <;> rw [h]
          exact hs.symm
        rw [if_pos hs]
        simp only [List.map_cons, List.mem_cons, hb]
        constructor
        · rintro (h | h)
          · exact Or.inl (Or.inl h)
          · exact Or.inl (Or.inr h)
        · rintro ((h | h) | h)
          · exact Or.inl h
          · exact Or.inr h
          · exact Or.inl (by rw [h, hs])
      · simp only [if_neg hs, List.map_cons, List.mem_cons, ih]
        tauto

theorem nodup_insertRecombine (t : Token) (l : List Token)
    (h : (l.map Token.state).Nodup) :
    ((insertRecombine t l).map Token.state).Nodup := by
  induction l with
  | nil => simp [insertRecombine]
  | cons u us ih =>
      simp only [List.map_cons, List.nodup_cons] at h
      simp only [insertRecombine]
      by_cases hs : u.state = t.state
      · have hb : (betterOf u t).state = u.state := by
          rcases betterOf_eq_or u t with h1 | h1 <;> rw [h1]
          exact hs.symm
        rw [if_pos hs]
        simp only [List.map_cons, List.nodup_cons, hb]
        exact ⟨h.1, h.2⟩
      · simp only [if_neg hs, List.map_cons, List.nodup_cons]
        refine ⟨?_, ih h.2⟩
        intro hmem
        rcases (mem_map_state_insertRecombine t us u.state).mp hmem with h1 | h1
        · exact h.1 h1
        · exact hs h1

theorem nodup_foldl_insertRecombine :
    ∀ (ts acc : List Token), (acc.map Token.state).Nodup →
      ((ts.foldl (fun acc t => insertRecombine t acc) acc).map Token.state).Nodup := by
  intro ts
  induction ts with
  | nil => intro acc h; exact h
  | cons t ts ih =>
      intro acc h
      exact ih (insertRecombine t acc) (nodup_insertRecombine t acc h)

theorem nodup_recombine (ts : List Token) :
    ((recombine ts).map Token.state).Nodup :=
  nodup_foldl_insertRecombine ts [] (by simp)

theorem feed_numFramesDecoded (g : SearchGraph) (beam : ℚ) :
    ∀ (scores : List (Nat → ℚ)) (e : Engine),
      (feedUntilExhausted g beam e scores).numFramesDecoded =
        e.numFramesDecoded + scores.length := by
  intro scores
  induction scores with
  | nil => intro e; simp [feedUntilExhausted]
  | cons ac rest ih =>
      intro e
      simp only [feedUntilExhausted]
      rw [ih (advanceOneFrame g beam ac e)]
      show e.numFramesDecoded + 1 + rest.length = e.numFramesDecoded + (rest.length + 1)
      omega

/-! ### Claims -/

/-- C1: after `FeedUntilExhausted` drives the engine from `Reset()` until the
ScoreProvider reports exhaustion, `NumFramesDecoded()` equals the number of
frames the provider exposed before exhaustion, and each `AdvanceOneFrame`
increments the count by exactly 1. -/
theorem num_frames_decoded_correct (g : SearchGraph) (beam : ℚ) (e : Engine)
    (scores : List (Nat → ℚ)) (ac : Nat → ℚ) :
    (feedUntilExhausted g beam (reset g e) scores).numFramesDecoded = scores.length
    ∧ (advanceOneFrame g beam ac e).numFramesDecoded = e.numFramesDecoded + 1 := by
  constructor
  · rw [feed_numFramesDecoded]
    simp [reset]
  · rfl

/-- C2: after every call to `AdvanceOneFrame`, the frontier contains at most
one surviving token per graph state (the list of frontier states has no
duplicates). -/
theorem frontier_one_token_per_state (g : SearchGraph) (beam : ℚ)
    (ac : Nat → ℚ) (e : Engine) :
    (((advanceOneFrame g beam ac e).frontier).map Token.state).Nodup := by
  show ((beamPrune beam (recombine _)).map Token.state).Nodup
  exact ((List.filter_sublist _).map Token.state).nodup (nodup_recombine _)

/-- C5: decoding is deterministic — two runs (of one engine instance or of two
distinct instances in arbitrary prior states) with identical graph, identical
score sequence and identical beam settings extract the same best path and
cost. -/
theorem decode_deterministic (g : SearchGraph) (beam : ℚ) (e1 e2 : Engine)
    (scores : List (Nat → ℚ)) :
    decodeRun g beam e1 scores = decodeRun g beam e2 scores := rfl

/-- C6: `Reset()` is idempotent with respect to decoding — resetting any
engine state and replaying a score sequence reproduces the fresh-engine run —
and `Reset()` clears the token lattice to the single frame-0 start token at
the graph's start state with zero cost, zero decoded frames, in the
`Decoding` state. -/
theorem reset_idempotent (g : SearchGraph) (beam : ℚ) (e : Engine)
    (scores : List (Nat → ℚ)) :
    decodeRun g beam e scores = decodeRun g beam (freshEngine g) scores
    ∧ (reset g e).frontier = [Token.start g.start]
    ∧ (Token.start g.start).cost = 0
    ∧ (Token.start g.start).frame = 0
    ∧ (reset g e).numFramesDecoded = 0
    ∧ (reset g e).state = EngineState.Decoding :=
  ⟨rfl, rfl, rfl, rfl, rfl, rfl⟩

/-- C7: an emptied frontier is reported as the recoverable "no hypothesis"
decoding failure (an error value, not a crash), and a subsequent `Reset()`
restores exactly the fresh-engine state. -/
theorem empty_frontier_recoverable (g : SearchGraph) (e : Engine)
    (h : e.frontier = []) :
    (GetFinalBestPath g (finalize e)).1 = Except.error DecodeError.emptyFrontier
    ∧ reset g e = freshEngine g := by
  constructor
  · simp [GetFinalBestPath, finalize, h, pathResults, minByCost]
  · rfl

/-- C7 witness: concrete engine with an empty frontier. -/
theorem empty_frontier_recoverable_witness :
    emptyEngine.frontier = []
    ∧ ((GetFinalBestPath wGraph (finalize emptyEngine)).1 =
          Except.error DecodeError.emptyFrontier
        ∧ reset wGraph emptyEngine = freshEngine wGraph) :=
  ⟨rfl, empty_frontier_recoverable wGraph emptyEngine rfl⟩

/-- C8: an invalid query — `GetNBestPath` with `n ≤ 0`, or `GetFinalBestPath`
before `Finalize()` — returns the `invalidQuery` error and leaves the engine
state (token lattice and frame count included) unchanged. -/
theorem invalid_query_no_mutation (g : SearchGraph) (e : Engine) (n : Int) :
    (n ≤ 0 →
      GetNBestPath g n e = (Except.error DecodeError.invalidQuery, e))
    ∧ (e.state ≠ EngineState.Finalized →
      GetFinalBestPath g e = (Except.error DecodeError.invalidQuery, e)) := by
  constructor
  · intro hn
    simp [GetNBestPath, hn]
  · intro hs
    simp [GetFinalBestPath, hs]

/-- C8 witness: `n = 0` and a non-finalized engine. -/
theorem invalid_query_no_mutation_witness :
    ((0 : Int) ≤ 0
      ∧ GetNBestPath wGraph 0 emptyEngine =
          (Except.error DecodeError.invalidQuery, emptyEngine))
    ∧ (emptyEngine.state ≠ EngineState.Finalized
      ∧ GetFinalBestPath wGraph emptyEngine =
          (Except.error DecodeError.invalidQuery, emptyEngine)) :=
  ⟨⟨le_refl 0, (invalid_query_no_mutation wGraph emptyEngine 0).1 (le_refl 0)⟩,
   ⟨by decide, (invalid_query_no_mutation wGraph emptyEngine 0).2 (by decide)⟩⟩

theorem tokenInv_epsSuccessors {g : SearchGraph} {t x : Token}
    (hx : x ∈ epsSuccessors g t) (ht : TokenInv g t) : TokenInv g x := by
  rcases List.mem_map.mp hx with ⟨a, ha, rfl⟩
  simp only [List.mem_filter, Bool.and_eq_true, beq_iff_eq] at ha
  constructor
  · show t.root = _
    exact ht.1
  · show (t.chainOk && _) = true
    rw [ht.2, ha.2.2]
    simp [Token.chainOk]

theorem tokenInv_emitSuccessors {g : SearchGraph} {ac : Nat → ℚ} {t x : Token}
    (hx : x ∈ emitSuccessors g ac t) (ht : TokenInv g t) : TokenInv g x := by
  rcases List.mem_map.mp hx with ⟨a, ha, rfl⟩
  simp only [List.mem_filter, Bool.and_eq_true, bne_iff_ne] at ha
  constructor
  · show t.root = _
    exact ht.1
  · show (t.chainOk && _) = true
    rw [ht.2, if_neg ha.2.2]
    simp

theorem tokenInv_epsClosureStep {g : SearchGraph} {ts : List Token}
    (h : ∀ t ∈ ts, TokenInv g t) :
    ∀ x ∈ epsClosureStep g ts, TokenInv g x := by
  intro x hx
  have hx' := mem_recombine hx
  rcases List.mem_append.mp hx' with h1 | h1
  · exact h x h1
  · rcases (mem_flatten_foldr (epsSuccessors g) ts).mp h1 with ⟨t, ht, hxt⟩
    exact tokenInv_epsSuccessors hxt (h t ht)

theorem tokenInv_epsClosure_iter {g : SearchGraph} :
    ∀ (k : Nat) (ts : List Token), (∀ t ∈ ts, TokenInv g t) →
      ∀ x ∈ (epsClosureStep g)^[k] ts, TokenInv g x := by
  intro k
  induction k with
  | zero => intro ts h x hx; exact h x hx
  | succ k ih =>
      intro ts h x hx
      rw [Function.iterate_succ_apply] at hx
      exact ih (epsClosureStep g ts) (tokenInv_epsClosureStep h) x hx

theorem tokenInv_advanceOneFrame {g : SearchGraph} {beam : ℚ} {ac : Nat → ℚ}
    {e : Engine} (h : ∀ t ∈ e.frontier, TokenInv g t) :
    ∀ x ∈ (advanceOneFrame g beam ac e).frontier, TokenInv g x := by
  intro x hx
  have hx1 : x ∈ recombine ((epsClosure g e.frontier).foldr
      (fun t acc => emitSuccessors g ac t ++ acc) []) :=
    (List.mem_filter.mp hx).1
  rcases (mem_flatten_foldr (emitSuccessors g ac) _).mp (mem_recombine hx1)
    with ⟨t, ht, hxt⟩
  have hinv : TokenInv g t :=
    tokenInv_epsClosure_iter (g.arcs.length + 1) e.frontier h t ht
  exact tokenInv_emitSuccessors hxt hinv

theorem tokenInv_feed {g : SearchGraph} {beam : ℚ} :
    ∀ (scores : List (Nat → ℚ)) (e : Engine),
      (∀ t ∈ e.frontier, TokenInv g t) →
      ∀ x ∈ (feedUntilExhausted g beam e scores).frontier, TokenInv g x := by
  intro scores
  induction scores with
  | nil => intro e h x hx; exact h x hx
  | cons ac rest ih =>
      intro e h x hx
      simp only [feedUntilExhausted] at hx
      exact ih (advanceOneFrame g beam ac e) (tokenInv_advanceOneFrame h) x hx

/-- C9: every token surviving in the lattice after any run has a predecessor
chain terminating at the synthetic frame-0 start token of the graph's start
state, and its stored frame index advances by exactly 1 per non-epsilon step
of the chain and is unchanged across epsilon steps (`Token.chainOk`). -/
theorem token_chain_invariant (g : SearchGraph) (beam : ℚ) (e : Engine)
    (scores : List (Nat → ℚ)) (t : Token)
    (h : t ∈ (feedUntilExhausted g beam (reset g e) scores).frontier) :
    t.root = Token.start g.start ∧ t.chainOk = true := by
  refine tokenInv_feed scores (reset g e) ?_ t h
  intro u hu
  have : u = Token.start g.start := List.mem_singleton.mp hu
  subst this
  exact ⟨rfl, rfl⟩

/-- C9 witness: the start token survives an empty run. -/
theorem token_chain_invariant_witness :
    Token.start 0 ∈ (feedUntilExhausted wGraph 0 (reset wGraph emptyEngine) []).frontier
    ∧ ((Token.start 0).root = Token.start wGraph.start
        ∧ (Token.start 0).chainOk = true) :=
  ⟨List.mem_singleton.mpr rfl,
   token_chain_invariant wGraph 0 emptyEngine [] (Token.start 0)
     (List.mem_singleton.mpr rfl)⟩

theorem dedupBy_sublist {α β : Type} (f : α → β) [DecidableEq β] :
    ∀ l : List α, List.Sublist (dedupBy f l) l := by
  intro l
  induction l using dedupBy.induct f with
  | case1 => simp [dedupBy]
  | case2 x xs ih =>
      rw [dedupBy]
      exact List.Sublist.cons₂ x (ih.trans (List.filter_sublist xs))

theorem dedupBy_pairwise {α β : Type} (f : α → β) [DecidableEq β] :
    ∀ l : List α, (dedupBy f l).Pairwise (fun a b => f a ≠ f b) := by
  intro l
  induction l using dedupBy.induct f with
  | case1 => simp [dedupBy]
  | case2 x xs ih =>
      rw [dedupBy]
      refine List.Pairwise.cons ?_ ih
      intro b hb
      have hb' : b ∈ xs.filter (fun y => decide (f y ≠ f x)) :=
        (dedupBy_sublist f _).mem hb
      have := (List.mem_filter.mp hb').2
      simp only [decide_eq_true_eq] at this
      exact fun h => this h.symm

theorem toFinset_map_filter_ne {α β : Type} [DecidableEq α] [DecidableEq β]
    (f : α → β) (x : α) (xs : List α) :
    ((xs.filter (fun y => decide (f y ≠ f x))).map f).toFinset =
      ((xs.map f).toFinset).erase (f x) := by
  ext b
  simp only [List.mem_toFinset, List.mem_map, List.mem_filter,
    decide_eq_true_eq, Finset.mem_erase]
  constructor
  · rintro ⟨y, ⟨hy, hne⟩, rfl⟩
    exact ⟨hne, y, hy, rfl⟩
  · rintro ⟨hne, y, hy, rfl⟩
    exact ⟨y, ⟨hy, hne⟩, rfl⟩

theorem dedupBy_length {α β : Type} [DecidableEq α] [DecidableEq β]
    (f : α → β) :
    ∀ l : List α, (dedupBy f l).length = (l.map f).toFinset.card := by
  intro l
  induction l using dedupBy.induct f with
  | case1 => simp [dedupBy]
  | case2 x xs ih =>
      rw [dedupBy]
      simp only [List.length_cons, ih, toFinset_map_filter_ne f x xs,
        List.map_cons, List.toFinset_cons]
      by_cases hx : f x ∈ (xs.map f).toFinset
      · rw [Finset.card_erase_add_one hx, Finset.card_insert_of_mem hx]
      · rw [Finset.erase_eq_of_not_mem hx, Finset.card_insert_of_not_mem hx]

/-- C4: for every `n` and every lattice, `NBest(n)` is sorted by non-decreasing
cost, contains no two results with the same word sequence, has length at most
`n`, and has fewer than `n` results exactly when the lattice has fewer than
`n` distinct word-sequence paths. -/
theorem nbest_sorted_distinct_bounded (g : SearchGraph) (ts : List Token)
    (n : Nat) :
    (nbest g ts n).Sorted (fun a b => a.1 ≤ b.1)
    ∧ (nbest g ts n).Pairwise (fun a b => a.2 ≠ b.2)
    ∧ (nbest g ts n).length ≤ n
    ∧ ((nbest g ts n).length < n ↔ distinctWordSeqCount g ts < n) := by
  have hsub : List.Sublist (nbest g ts n)
      (dedupBy Prod.snd (sortByCost (pathResults g ts))) :=
    List.take_sublist n _
  refine ⟨?_, ?_, ?_, ?_⟩
  · exact List.Pairwise.sublist
      (hsub.trans (dedupBy_sublist Prod.snd _))
      (List.sorted_insertionSort _ (pathResults g ts))
  · exact List.Pairwise.sublist hsub (dedupBy_pairwise Prod.snd _)
  · show (List.take n _).length ≤ n
    rw [List.length_take]
    omega
  · have hlen : (dedupBy Prod.snd (sortByCost (pathResults g ts))).length =
        distinctWordSeqCount g ts := by
      rw [dedupBy_length]
      have hperm : List.Perm ((sortByCost (pathResults g ts)).map Prod.snd)
          ((pathResults g ts).map Prod.snd) :=
        (List.perm_insertionSort _ (pathResults g ts)).map Prod.snd
      have hfin : ((sortByCost (pathResults g ts)).map Prod.snd).toFinset =
          ((pathResults g ts).map Prod.snd).toFinset := by
        ext a
        simp only [List.mem_toFinset]
        exact hperm.mem_iff
      rw [hfin]
      rfl
    show (List.take n _).length < n ↔ _
    rw [List.length_take, hlen]
    omega

/-- C3 counterexample: with graph and scores fixed, widening the beam from 2
to 10 raises the extracted best-path cost from 20 to 105 and loses the path
`[1, 3, 5]` that beam 2 extracts — the beam 2 intermediate state `3` falls
outside beam 10's tighter frame-2 cutoff (pulled down by the surviving cheap
competitor), so best-path cost is not monotone in beam width. -/
theorem beam_monotonicity_counterexample :
    (2 : ℚ) ≤ 10
    ∧ decodeRun cxGraph 2 (freshEngine cxGraph) cxScores =
        Except.ok ((20 : ℚ), [1, 3, 5])
    ∧ decodeRun cxGraph 10 (freshEngine cxGraph) cxScores =
        Except.ok ((105 : ℚ), [2, 4, 6])
    ∧ ¬ ((105 : ℚ) ≤ (20 : ℚ)) := by
  refine ⟨by norm_num, ?_, ?_, by norm_num⟩ <;>
  · norm_num [decodeRun, feedUntilExhausted, advanceOneFrame, epsClosure,
      epsClosureStep, epsSuccessors, emitSuccessors, recombine, insertRecombine,
      betterOf, beamPrune, bestCost, reset, freshEngine, cxGraph, cxScores,
      GetFinalBestPath, finalize, pathResults, minByCost, Token.state,
      Token.cost, Token.frame, Token.words]

/-- C3 (amended): beam monotonicity holds per step — for a single
`AdvanceOneFrame` from a common engine state, every token surviving under
beam `b1` also survives under any beam `b2 ≥ b1`; over multi-frame runs the
claimed monotonicity of final best-path cost fails. -/
theorem beam_monotonicity_single_step (g : SearchGraph) (ac : Nat → ℚ)
    (e : Engine) (b1 b2 : ℚ) (hb : b1 ≤ b2) (t : Token)
    (ht : t ∈ (advanceOneFrame g b1 ac e).frontier) :
    t ∈ (advanceOneFrame g b2 ac e).frontier := by
  have h1 := List.mem_filter.mp ht
  refine List.mem_filter.mpr ⟨h1.1, ?_⟩
  have h2 : t.cost ≤ bestCost (recombine ((epsClosure g e.frontier).foldr
      (fun t acc => emitSuccessors g ac t ++ acc) [])) + b1 := by
    have := h1.2
    simpa using this
  simp only [decide_eq_true_eq]
  exact le_trans h2 (by linarith)

/-- C3 witness: the single emitted token survives one step under beam 1 and
hence under beam 2. -/
theorem beam_monotonicity_single_step_witness :
    (1 : ℚ) ≤ 2
    ∧ emitTok ∈ (advanceOneFrame emitGraph 1 (fun _ => 0)
        (freshEngine emitGraph)).frontier
    ∧ emitTok ∈ (advanceOneFrame emitGraph 2 (fun _ => 0)
        (freshEngine emitGraph)).frontier :=
  ⟨by norm_num,
   by
     norm_num [advanceOneFrame, epsClosure, epsClosureStep, epsSuccessors,
       emitSuccessors, recombine, insertRecombine, betterOf, beamPrune,
       bestCost, reset, freshEngine, emitGraph, emitTok, Token.state,
       Token.cost, Token.frame],
   beam_monotonicity_single_step emitGraph (fun _ => 0) (freshEngine emitGraph)
     1 2 (by norm_num) emitTok
     (by
       norm_num [advanceOneFrame, epsClosure, epsClosureStep, epsSuccessors,
         emitSuccessors, recombine, insertRecombine, betterOf, beamPrune,
         bestCost, reset, freshEngine, emitGraph, emitTok, Token.state,
         Token.cost, Token.frame])⟩

/-- C10: the default-constructed `TLGDecoderOptions` has `word_symbol_table`
equal to the empty string and `fst_path` equal to the empty string. -/
theorem tlg_decoder_options_default :
    TLGDecoderOptions.defaultConstruct.word_symbol_table = ""
    ∧ TLGDecoderOptions.defaultConstruct.fst_path = "" :=
  ⟨rfl, rfl⟩

end PPSpeech
